import Mathlib

/-!
Verification of the reconciliation engine in `src/sites/sync.rs` of the
`wrangler` repository: the sync planner that compares a local
content-addressed asset tree against a remote key-value namespace and
produces an upload list, a delete list and a patched asset manifest,
restricted to an optional path subset.

The Rust code is embedded shallowly:

* `String` keys stay `String`s; Rust's component-based `Path::starts_with`
  is modelled by `pathComponents` / `path_starts_with` below.
* `HashSet<String>` is modelled as a `List String` carrying one (arbitrary
  but explicit) enumeration order; insertion (`hsInsert`) deduplicates,
  as the Rust set does.  Making the enumeration order an explicit input
  lets us reason about the hash set's unspecified iteration order.
* The fallible remote-key iterator (`KeyList`) is modelled as a
  `List (Except ε String)`; the `for` loop of `sync` that drains it is
  `collect_remote_keys`.
* The manifest patch loop calls `remove_hash_from_path(..).unwrap()`.
  `remove_hash_from_path` lives outside the visible sources, so the
  patcher is parameterised over an abstract `stripHash` function; the
  `unwrap` panic is modelled by an `Option` result (`none` = panic).
-/

set_option autoImplicit false

namespace WranglerSync

/-- Split a character list on `/`, keeping (possibly empty) chunks. -/
def splitSlash : List Char → List (List Char)
  | [] => [[]]
  | c :: rest =>
    if c = '/' then [] :: splitSlash rest
    else
      match splitSlash rest with
      | [] => [[c]]
      | comp :: comps => (c :: comp) :: comps

/-- Path components of a string, following Rust's `std::path::Path` on
Unix: split on `/`, drop empty components, a leading `/` becomes the root
component (rendered here as `['/']`, which no ordinary component can
equal), and `.` components are dropped except at the very beginning of a
relative path. -/
def pathComponents (s : String) : List (List Char) :=
  let raw := (splitSlash s.data).filter (fun c => c ≠ [])
  if s.data.head? = some '/' then
    ['/'] :: raw.filter (fun c => c ≠ ['.'])
  else
    match raw with
    | [] => []
    | c :: rest => c :: rest.filter (fun c => c ≠ ['.'])

/-- `Path::new(key).starts_with(base)` from the Rust standard library:
the components of `base` are a prefix of the components of `key`. -/
def path_starts_with (key base : String) : Bool :=
  (pathComponents base).isPrefixOf (pathComponents key)

/-- `cloudflare::endpoints::workerskv::write_bulk::KeyValuePair`. -/
structure KeyValuePair where
  key : String
  value : String
  expiration_ttl : Option Nat
  expiration : Option Nat
  base64 : Option Bool
deriving DecidableEq, Repr

/-- `HashSet::insert`: add `k` to the set unless already present.  The
list order records one enumeration order of the set. -/
def hsInsert (s : List String) (k : String) : List String :=
  if k ∈ s then s else s ++ [k]

/-- Building a `HashSet<String>` by inserting the elements of an
enumeration in order (the `for` loops at lines 40–47 and 56–58 of
`sync.rs`). -/
def buildKeySet (ks : List String) : List String :=
  ks.foldl hsInsert []

/-- `subset_keys` (sync.rs lines 96–104): keep exactly the keys whose
path starts with `subset_str`. -/
def subset_keys (keys : List String) (subset_str : String) : List String :=
  keys.filter (fun k => path_starts_with k subset_str)

/-- `filter_files` (sync.rs lines 86–94): keep a pair iff its key's path
starts with `subset_str` and the key is not in `already_uploaded`. -/
def filter_files (pairs : List KeyValuePair) (already_uploaded : List String)
    (subset_str : String) : List KeyValuePair :=
  pairs.filter (fun pair =>
    path_starts_with pair.key subset_str && !(decide (pair.key ∈ already_uploaded)))

/-- The `(to_upload, to_delete)` part of the sync result. -/
structure SyncPlan where
  to_upload : List KeyValuePair
  to_delete : List String
deriving DecidableEq, Repr

/-- The pure reconciliation core of `sync` (sync.rs lines 48–67): build
the remote key set from its enumeration, filter both sides to the subset,
compute the upload list with `filter_files` and the delete list as the
set difference `remote_subset \ local_subset`. -/
def reconcile (pairs : List KeyValuePair) (remote_enum : List String)
    (subset_str : String) : SyncPlan :=
  let remote_keys := buildKeySet remote_enum
  let remote_subset := subset_keys remote_keys subset_str
  let local_keys := buildKeySet (pairs.map (fun p => p.key))
  let local_subset := subset_keys local_keys subset_str
  { to_upload := filter_files pairs remote_subset subset_str
    to_delete := remote_subset.filter (fun k => !(decide (k ∈ local_subset))) }

/-- The `for` loop at sync.rs lines 40–47: drain the fallible remote-key
iterator, inserting each `Ok` name into the `HashSet` accumulator; on the
first `Err e`, `bail!(kv::format_error(e))` — abort with the formatted
error, discarding everything accumulated so far.  `format_error` lives
outside the visible sources and is kept abstract as `fmt`. -/
def collect_remote_keys {ε : Type} (fmt : ε → String) (acc : List String) :
    List (Except ε String) → Except String (List String)
  | [] => Except.ok acc
  | Except.ok k :: rest => collect_remote_keys fmt (hsInsert acc k) rest
  | Except.error e :: _ => Except.error (fmt e)

/-- The search `remote_keys.iter().find(|k| key == remove_hash_from_path(k).unwrap())`
at sync.rs lines 72–74.  `stripHash` is the abstract
`remove_hash_from_path`; every examined key is unwrapped, so a key that
fails to strip *before* a match is found panics — modelled by the outer
`none`.  `some none` means the search finished without a match; `some
(some k)` is the first matching remote key. -/
def find_original (stripHash : String → Option String) (key : String) :
    List String → Option (Option String)
  | [] => some (none)
  | k :: rest =>
    match stripHash k with
    | none => none
    | some p => if key = p then some (some k) else find_original stripHash key rest

/-- The body of the manifest loop at sync.rs lines 70–79 for a single
`(key, val)` entry: entries whose path starts with `subset_str` are left
alone; otherwise look for a remote key stripping to `key` and, when it
differs from `val`, overwrite `val` with it.  `none` models the
`unwrap` panic inside the search. -/
def patch_entry (stripHash : String → Option String) (remote_keys : List String)
    (subset_str : String) (entry : String × String) : Option (String × String) :=
  if !(path_starts_with entry.1 subset_str) then
    match find_original stripHash entry.1 remote_keys with
    | none => none
    | some (none) => some entry
    | some (some original) =>
      if entry.2 ≠ original then some (entry.1, original) else some entry
  else
    some entry

/-- The `for (key, val) in asset_manifest.iter_mut()` loop (sync.rs lines
70–80), entry by entry; `none` models a panic in any entry. -/
def patch_loop (stripHash : String → Option String) (remote_keys : List String)
    (subset_str : String) : List (String × String) → Option (List (String × String))
  | [] => some []
  | e :: rest =>
    match patch_entry stripHash remote_keys subset_str e,
          patch_loop stripHash remote_keys subset_str rest with
    | some e', some rest' => some (e' :: rest')
    | _, _ => none

/-- The Manifest Patcher (sync.rs lines 69–81): the loop runs only under
`if !subset_str.is_empty()`; with an empty subset the manifest is
returned untouched. -/
def patch_manifest (stripHash : String → Option String) (remote_keys : List String)
    (subset_str : String) (manifest : List (String × String)) :
    Option (List (String × String)) :=
  if subset_str = "" then some manifest
  else patch_loop stripHash remote_keys subset_str manifest

/-- The reconciliation part of `sync` (sync.rs lines 39–83), given the
outputs of its external collaborators: the remote-key iterator contents
(`remote_iter`), the local pairs and asset manifest from
`directory_keys_values`, and the configured subset string.  An
enumeration error yields `Except.error` (the `bail!`); a
`remove_hash_from_path` unwrap panic yields `Except.ok none`; otherwise
the result is the `(to_upload, to_delete, asset_manifest)` triple. -/
def sync {ε : Type} (fmt : ε → String) (stripHash : String → Option String)
    (remote_iter : List (Except ε String)) (pairs : List KeyValuePair)
    (asset_manifest : List (String × String)) (subset_str : String) :
    Except String (Option (List KeyValuePair × List String × List (String × String))) :=
  match collect_remote_keys fmt [] remote_iter with
  | Except.error e => Except.error e
  | Except.ok remote_keys =>
    let remote_subset := subset_keys remote_keys subset_str
    let local_keys := buildKeySet (pairs.map (fun p => p.key))
    let local_subset := subset_keys local_keys subset_str
    let to_upload := filter_files pairs remote_subset subset_str
    let to_delete := remote_subset.filter (fun k => !(decide (k ∈ local_subset)))
    Except.ok ((patch_manifest stripHash remote_keys subset_str asset_manifest).map
      (fun m => (to_upload, to_delete, m)))

/-- Modelled from the spec: `remove_hash_from_path` itself is outside the
visible sources; the spec says a ContentKey is `<logical-path><hash-suffix>`
and the patcher compares keys with the hash suffix stripped.  This sample
instance separates path and hash with `#` and is used only to instantiate
the `stripHash` parameter in concrete witnesses. -/
def takeBeforeHash : List Char → Option (List Char)
  | [] => none
  | c :: rest =>
    if c = '#' then some [] else (takeBeforeHash rest).map (fun cs => c :: cs)

/-- Modelled from the spec (continued): strip everything from the first
`#` on; `none` when the key carries no `#`-separated hash suffix. -/
def sampleStrip (k : String) : Option String :=
  (takeBeforeHash k.data).map (fun cs => String.mk cs)

/-- `Result::is_ok` for an element of the remote-key iterator. -/
def exceptIsOk {ε α : Type} : Except ε α → Bool
  | Except.ok _ => true
  | Except.error _ => false

/-- An iterator element is harmless for the patcher's `unwrap`: either it
is an error (never reaches the patch loop) or its key strips
successfully. -/
def stripOk {ε : Type} (stripHash : String → Option String) :
    Except ε String → Bool
  | Except.ok k => (stripHash k).isSome
  | Except.error _ => true

/-- What one pass of the manifest loop guarantees for a single entry:
the logical path is kept; an in-subset entry is untouched; a changed
entry was overwritten with exactly a remote key that strips to its path
and differed from its previous value. -/
def EntrySpec (stripHash : String → Option String) (remote_keys : List String)
    (subset_str : String) (e e' : String × String) : Prop :=
  e'.1 = e.1 ∧ (path_starts_with e.1 subset_str = true → e' = e) ∧
    (e' ≠ e → ∃ orig, orig ∈ remote_keys ∧ stripHash orig = some e.1 ∧
      orig ≠ e.2 ∧ e'.2 = orig)

/-- A sample local pair used to instantiate witnesses. -/
def samplePair : KeyValuePair :=
  { key := "a", value := "v", expiration_ttl := none, expiration := none,
    base64 := none }

/-- The spec's own example: path `b` changed content, so the local tree
holds only the new key while the remote holds only the old one. -/
def pairBNew : KeyValuePair :=
  { key := "b#2", value := "new", expiration_ttl := none, expiration := none,
    base64 := none }

/-! ### Basic membership lemmas -/

theorem mem_hsInsert (s : List String) (k a : String) :
    a ∈ hsInsert s k ↔ a ∈ s ∨ a = k := by
  unfold hsInsert
  by_cases h : k ∈ s
  · simp only [h, if_pos]
    constructor
    · exact Or.inl
    · rintro (ha | rfl)
      · exact ha
      · exact h
  · simp [h]

theorem mem_foldl_hsInsert (l : List String) :
    ∀ (acc : List String) (a : String),
      a ∈ l.foldl hsInsert acc ↔ a ∈ acc ∨ a ∈ l := by
  induction l with
  | nil => intro acc a; simp
  | cons k rest ih =>
    intro acc a
    simp only [List.foldl_cons, ih, mem_hsInsert, List.mem_cons]
    tauto

theorem mem_buildKeySet (l : List String) (a : String) :
    a ∈ buildKeySet l ↔ a ∈ l := by
  unfold buildKeySet
  simp [mem_foldl_hsInsert]

theorem mem_subset_keys (keys : List String) (subset_str k : String) :
    k ∈ subset_keys keys subset_str ↔
      k ∈ keys ∧ path_starts_with k subset_str = true := by
  unfold subset_keys
  simp [List.mem_filter]

theorem mem_filter_files (pairs : List KeyValuePair)
    (already_uploaded : List String) (subset_str : String) (p : KeyValuePair) :
    p ∈ filter_files pairs already_uploaded subset_str ↔
      p ∈ pairs ∧ path_starts_with p.key subset_str = true ∧
        p.key ∉ already_uploaded := by
  unfold filter_files
  simp [List.mem_filter, and_assoc]

theorem path_starts_with_empty (k : String) : path_starts_with k "" = true := by
  unfold path_starts_with
  have h : pathComponents "" = [] := by rfl
  rw [h]
  cases pathComponents k <;> rfl

theorem to_upload_eq (pairs : List KeyValuePair) (remote_enum : List String)
    (subset_str : String) :
    (reconcile pairs remote_enum subset_str).to_upload =
      filter_files pairs (subset_keys (buildKeySet remote_enum) subset_str)
        subset_str := rfl

theorem to_delete_mem (pairs : List KeyValuePair) (remote_enum : List String)
    (subset_str : String) (k : String) :
    k ∈ (reconcile pairs remote_enum subset_str).to_delete ↔
      k ∈ subset_keys (buildKeySet remote_enum) subset_str ∧
        k ∉ subset_keys (buildKeySet (pairs.map (fun p => p.key))) subset_str := by
  unfold reconcile
  simp only [List.mem_filter, Bool.not_eq_eq_eq_not, Bool.not_true,
    decide_eq_false_iff_not]

/-! ### C1: upload inclusion -/

/-- C1: a local pair `p` is in the `to_upload` list returned by
`filter_files` iff `p`'s key's path starts with the subset string and
`p`'s key is not a member of the remote subset; the pair's value plays no
role. -/
theorem upload_inclusion (pairs : List KeyValuePair) (remote_subset : List String)
    (subset_str : String) (p : KeyValuePair) (hp : p ∈ pairs) :
    p ∈ filter_files pairs remote_subset subset_str ↔
      path_starts_with p.key subset_str = true ∧ p.key ∉ remote_subset := by
  rw [mem_filter_files]
  tauto

theorem upload_inclusion_witness :
    samplePair ∈ [samplePair] ∧
      (samplePair ∈ filter_files [samplePair] ["b"] "" ↔
        path_starts_with samplePair.key "" = true ∧ samplePair.key ∉ ["b"]) :=
  ⟨by decide, upload_inclusion [samplePair] ["b"] "" samplePair (by decide)⟩

/-! ### C2: delete correctness -/

/-- C2: the `to_delete` list of `reconcile`, viewed as a set, is exactly
the set difference `remote_subset \ local_subset`, where `local_subset`
is the subset filter applied to the key set of the local pairs. -/
theorem delete_correctness (pairs : List KeyValuePair) (remote_enum : List String)
    (subset_str : String) (k : String) :
    k ∈ (reconcile pairs remote_enum subset_str).to_delete ↔
      k ∈ subset_keys (buildKeySet remote_enum) subset_str ∧
        k ∉ subset_keys (buildKeySet (pairs.map (fun p => p.key))) subset_str :=
  to_delete_mem pairs remote_enum subset_str k

/-! ### C9: uploads and deletes are disjoint -/

/-- C9: no key is staged for upload and deletion at once: a pair in
`to_upload` has a key outside `remote_subset`, while every key in
`to_delete` is drawn from `remote_subset`. -/
theorem upload_delete_disjoint (pairs : List KeyValuePair)
    (remote_enum : List String) (subset_str : String) (q : KeyValuePair)
    (hq : q ∈ (reconcile pairs remote_enum subset_str).to_upload) :
    q.key ∉ (reconcile pairs remote_enum subset_str).to_delete := by
  intro hk
  rw [to_upload_eq, mem_filter_files] at hq
  rw [to_delete_mem] at hk
  exact hq.2.2 hk.1

theorem upload_delete_disjoint_witness :
    samplePair ∈ (reconcile [samplePair] ["b"] "").to_upload ∧
      samplePair.key ∉ (reconcile [samplePair] ["b"] "").to_delete :=
  ⟨by decide, upload_delete_disjoint [samplePair] ["b"] "" samplePair (by decide)⟩

/-! ### C4: a content update is staged as one upload plus one delete -/

/-- C4: when a logical path's content changes — the local pairs carry the
new hash-suffixed key (absent from the remote enumeration), the remote
enumeration carries the old key (no longer among the local keys), and
both keys fall inside the active subset — the old key is staged in
`to_delete` and the new key is the key of a pair staged in `to_upload`
of the same `reconcile` run. -/
theorem update_as_add_remove (pairs : List KeyValuePair)
    (remote_enum : List String) (subset_str : String) (p : KeyValuePair)
    (k_old : String) (hp : p ∈ pairs) (hold_remote : k_old ∈ remote_enum)
    (hnew_sub : path_starts_with p.key subset_str = true)
    (hold_sub : path_starts_with k_old subset_str = true)
    (hnew_fresh : p.key ∉ remote_enum)
    (hold_gone : k_old ∉ pairs.map (fun q => q.key)) :
    k_old ∈ (reconcile pairs remote_enum subset_str).to_delete ∧
      ∃ q ∈ (reconcile pairs remote_enum subset_str).to_upload, q.key = p.key := by
  constructor
  · rw [to_delete_mem]
    constructor
    · rw [mem_subset_keys, mem_buildKeySet]
      exact ⟨hold_remote, hold_sub⟩
    · intro hmem
      rw [mem_subset_keys, mem_buildKeySet] at hmem
      exact hold_gone hmem.1
  · refine ⟨p, ?_, rfl⟩
    rw [to_upload_eq, mem_filter_files]
    refine ⟨hp, hnew_sub, ?_⟩
    intro hmem
    rw [mem_subset_keys, mem_buildKeySet] at hmem
    exact hnew_fresh hmem.1

theorem update_as_add_remove_witness :
    (pairBNew ∈ [pairBNew] ∧ "b#1" ∈ ["b#1"] ∧
        path_starts_with pairBNew.key "" = true ∧
        path_starts_with "b#1" "" = true ∧ pairBNew.key ∉ ["b#1"] ∧
        "b#1" ∉ [pairBNew].map (fun q => q.key)) ∧
      "b#1" ∈ (reconcile [pairBNew] ["b#1"] "").to_delete ∧
        ∃ q ∈ (reconcile [pairBNew] ["b#1"] "").to_upload, q.key = pairBNew.key :=
  ⟨by decide,
    update_as_add_remove [pairBNew] ["b#1"] "" pairBNew "b#1" (by decide)
      (by decide) (by decide) (by decide) (by decide) (by decide)⟩

/-! ### C6: determinism across runs -/

theorem filter_files_congr (pairs : List KeyValuePair) (up1 up2 : List String)
    (subset_str : String) (h : ∀ k, k ∈ up1 ↔ k ∈ up2) :
    filter_files pairs up1 subset_str = filter_files pairs up2 subset_str := by
  unfold filter_files
  apply List.filter_congr
  intro p _
  have hdec : decide (p.key ∈ up1) = decide (p.key ∈ up2) :=
    decide_eq_decide.mpr (h p.key)
  rw [hdec]

/-- C6 (amended): two `reconcile` runs over the same remote key set —
the enumerations fed to the hash set being permutations of one another —
produce the same `to_upload` list and `to_delete` lists with the same
members; the *order* of `to_delete` follows the hash set's enumeration
order and is all that may differ between runs. -/
theorem reconcile_order_insensitive (pairs : List KeyValuePair)
    (e1 e2 : List String) (subset_str : String) (hperm : e1.Perm e2) :
    (reconcile pairs e1 subset_str).to_upload =
        (reconcile pairs e2 subset_str).to_upload ∧
      ∀ k, k ∈ (reconcile pairs e1 subset_str).to_delete ↔
        k ∈ (reconcile pairs e2 subset_str).to_delete := by
  have hmem : ∀ k, k ∈ e1 ↔ k ∈ e2 := fun k => hperm.mem_iff
  have hsub : ∀ k, k ∈ subset_keys (buildKeySet e1) subset_str ↔
      k ∈ subset_keys (buildKeySet e2) subset_str := by
    intro k
    rw [mem_subset_keys, mem_subset_keys, mem_buildKeySet, mem_buildKeySet,
      hmem k]
  constructor
  · rw [to_upload_eq, to_upload_eq]
    exact filter_files_congr pairs _ _ subset_str hsub
  · intro k
    rw [to_delete_mem, to_delete_mem, hsub k]

theorem reconcile_order_insensitive_witness :
    (["a", "b"] : List String).Perm ["b", "a"] ∧
      ((reconcile [] ["a", "b"] "").to_upload =
          (reconcile [] ["b", "a"] "").to_upload ∧
        ∀ k, k ∈ (reconcile [] ["a", "b"] "").to_delete ↔
          k ∈ (reconcile [] ["b", "a"] "").to_delete) :=
  ⟨List.Perm.swap "b" "a" [],
    reconcile_order_insensitive [] ["a", "b"] ["b", "a"] ""
      (List.Perm.swap "b" "a" [])⟩

/-- C6 (counterexample): the same remote key set `{a, b}`, enumerated by
the hash set in the two orders `[a, b]` and `[b, a]`, yields the same
`to_upload` but differently ordered `to_delete` lists, so the outputs
are not identical as lists. -/
theorem reconcile_order_counterexample :
    (["a", "b"] : List String).Perm ["b", "a"] ∧
      (reconcile [] ["a", "b"] "").to_upload =
        (reconcile [] ["b", "a"] "").to_upload ∧
      (reconcile [] ["a", "b"] "").to_delete ≠
        (reconcile [] ["b", "a"] "").to_delete :=
  ⟨List.Perm.swap "b" "a" [], by decide, by decide⟩

/-! ### C7: the empty subset is the identity filter -/

/-- C7: for every key set `S`, `subset_keys S "" = S`: with the empty
subset string every key is retained, because `Path::starts_with` with an
empty (zero-component) base path holds for every path. -/
theorem subset_keys_empty_subset (S : List String) : subset_keys S "" = S := by
  unfold subset_keys
  apply List.filter_eq_self.mpr
  intro k _
  exact path_starts_with_empty k

/-! ### C3: manifest patch scope -/

theorem find_original_mem (stripHash : String → Option String) (key : String) :
    ∀ (rk : List String) (r : String),
      find_original stripHash key rk = some (some r) →
        r ∈ rk ∧ stripHash r = some key := by
  intro rk
  induction rk with
  | nil => intro r h; simp [find_original] at h
  | cons a rest ih =>
    intro r h
    unfold find_original at h
    cases hs : stripHash a with
    | none => rw [hs] at h; cases h
    | some p =>
      rw [hs] at h
      dsimp only at h
      by_cases hk : key = p
      · rw [if_pos hk] at h
        cases h
        exact ⟨List.mem_cons_self a rest, by rw [hs, hk]⟩
      · rw [if_neg hk] at h
        obtain ⟨h1, h2⟩ := ih r h
        exact ⟨List.mem_cons_of_mem a h1, h2⟩

theorem entrySpec_refl (stripHash : String → Option String)
    (remote_keys : List String) (subset_str : String) (e : String × String) :
    EntrySpec stripHash remote_keys subset_str e e :=
  ⟨rfl, fun _ => rfl, fun hne => absurd rfl hne⟩

theorem patch_entry_spec (stripHash : String → Option String)
    (remote_keys : List String) (subset_str : String) (e e' : String × String)
    (h : patch_entry stripHash remote_keys subset_str e = some e') :
    EntrySpec stripHash remote_keys subset_str e e' := by
  unfold patch_entry at h
  cases hps : path_starts_with e.1 subset_str with
  | true =>
    rw [hps] at h
    simp only [Bool.not_true, if_neg] at h
    cases h
    exact entrySpec_refl _ _ _ _
  | false =>
    rw [hps] at h
    simp only [Bool.not_false, if_pos] at h
    cases hfo : find_original stripHash e.1 remote_keys with
    | none => rw [hfo] at h; cases h
    | some found =>
      rw [hfo] at h
      cases found with
      | none =>
        cases h
        exact entrySpec_refl _ _ _ _
      | some original =>
        dsimp only at h
        by_cases hne : e.2 ≠ original
        · rw [if_pos hne] at h
          cases h
          obtain ⟨hmem, hstrip⟩ := find_original_mem stripHash e.1 remote_keys
            original hfo
          refine ⟨rfl, ?_, ?_⟩
          · intro htrue; rw [htrue] at hps; cases hps
          · intro _
            exact ⟨original, hmem, hstrip, fun hh => hne hh.symm, rfl⟩
        · rw [if_neg hne] at h
          cases h
          exact entrySpec_refl _ _ _ _

theorem forall2_self {α : Type} (P : α → α → Prop) (hP : ∀ e, P e e) :
    ∀ l : List α, List.Forall₂ P l l
  | [] => List.Forall₂.nil
  | e :: rest => List.Forall₂.cons (hP e) (forall2_self P hP rest)

theorem patch_loop_spec (stripHash : String → Option String)
    (remote_keys : List String) (subset_str : String) :
    ∀ (manifest patched : List (String × String)),
      patch_loop stripHash remote_keys subset_str manifest = some patched →
        List.Forall₂ (EntrySpec stripHash remote_keys subset_str) manifest patched := by
  intro manifest
  induction manifest with
  | nil =>
    intro patched h
    cases h
    exact List.Forall₂.nil
  | cons e rest ih =>
    intro patched h
    unfold patch_loop at h
    cases hpe : patch_entry stripHash remote_keys subset_str e with
    | none => rw [hpe] at h; cases h
    | some e' =>
      rw [hpe] at h
      cases hpl : patch_loop stripHash remote_keys subset_str rest with
      | none => rw [hpl] at h; cases h
      | some rest' =>
        rw [hpl] at h
        cases h
        exact List.Forall₂.cons
          (patch_entry_spec stripHash remote_keys subset_str e e' hpe)
          (ih rest' hpl)

/-- C3: whenever the Manifest Patcher returns (no panic), each manifest
entry keeps its logical path; an entry whose path starts with the subset
string is never modified; and an entry that did change was overwritten
with exactly some remote key that strips (hash removed) to the entry's
path and differed from the entry's previous value — all other entries
are unchanged. -/
theorem manifest_patch_scope (stripHash : String → Option String)
    (remote_keys : List String) (subset_str : String)
    (manifest patched : List (String × String))
    (h : patch_manifest stripHash remote_keys subset_str manifest = some patched) :
    List.Forall₂ (EntrySpec stripHash remote_keys subset_str) manifest patched := by
  unfold patch_manifest at h
  by_cases hs : subset_str = ""
  · rw [if_pos hs] at h
    cases h
    exact forall2_self _ (entrySpec_refl stripHash remote_keys subset_str) manifest
  · rw [if_neg hs] at h
    exact patch_loop_spec stripHash remote_keys subset_str manifest patched h

theorem manifest_patch_scope_witness :
    patch_manifest sampleStrip ["x#1"] "s" [("x", "old"), ("s/a", "v")] =
        some [("x", "x#1"), ("s/a", "v")] ∧
      List.Forall₂ (EntrySpec sampleStrip ["x#1"] "s")
        [("x", "old"), ("s/a", "v")] [("x", "x#1"), ("s/a", "v")] :=
  ⟨by decide,
    manifest_patch_scope sampleStrip ["x#1"] "s" [("x", "old"), ("s/a", "v")]
      [("x", "x#1"), ("s/a", "v")] (by decide)⟩

/-! ### C8: subset filtering is idempotent -/

/-- C8: for every key set `S` and subset string `p`, filtering twice with
the same subset string is the same as filtering once:
`subset_keys (subset_keys S p) p = subset_keys S p`. -/
theorem subset_keys_idempotent (S : List String) (p : String) :
    subset_keys (subset_keys S p) p = subset_keys S p := by
  unfold subset_keys
  apply List.filter_eq_self.mpr
  intro k hk
  exact (List.mem_filter.mp hk).2

/-! ### C5: remote enumeration failure aborts the sync -/

theorem collect_error {ε : Type} (fmt : ε → String) (e : ε)
    (post : List (Except ε String)) :
    ∀ (pre : List (Except ε String)) (acc : List String),
      (∀ x ∈ pre, exceptIsOk x = true) →
      collect_remote_keys fmt acc (pre ++ Except.error e :: post) =
        Except.error (fmt e) := by
  intro pre
  induction pre with
  | nil => intro acc _; rfl
  | cons x rest ih =>
    intro acc hok
    cases x with
    | ok k =>
      exact ih (hsInsert acc k)
        (fun y hy => hok y (List.mem_cons_of_mem _ hy))
    | error e0 =>
      have hx := hok (Except.error e0) (List.mem_cons_self _ _)
      simp [exceptIsOk] at hx

/-- C5: when the remote key enumeration yields its first element-level
error `e` (everything before it was `Ok`), `sync` aborts with exactly the
formatted error `fmt e` and returns nothing else — no key set, no
upload/delete plan, no manifest. -/
theorem sync_aborts_on_first_error {ε : Type} (fmt : ε → String)
    (stripHash : String → Option String) (pre post : List (Except ε String))
    (e : ε) (pairs : List KeyValuePair)
    (asset_manifest : List (String × String)) (subset_str : String)
    (hpre : pre.all exceptIsOk = true) :
    sync fmt stripHash (pre ++ Except.error e :: post) pairs asset_manifest
        subset_str = Except.error (fmt e) := by
  unfold sync
  rw [collect_error fmt e post pre [] (List.all_eq_true.mp hpre)]

theorem sync_aborts_on_first_error_witness :
    ([Except.ok "a"] : List (Except String String)).all exceptIsOk = true ∧
      sync (fun msg => msg) sampleStrip
          ([Except.ok "a"] ++ Except.error "boom" :: []) [] [] "" =
        Except.error "boom" :=
  ⟨by decide,
    sync_aborts_on_first_error (fun msg => msg) sampleStrip [Except.ok "a"]
      [] "boom" [] [] "" (by decide)⟩

/-! ### C10: the unwrap panic is unreachable for well-formed remote keys -/

theorem collect_ok {ε : Type} (fmt : ε → String) :
    ∀ (iter : List (Except ε String)) (acc : List String),
      (∀ x ∈ iter, exceptIsOk x = true) →
      ∃ rk, collect_remote_keys fmt acc iter = Except.ok rk ∧
        ∀ k ∈ rk, k ∈ acc ∨ Except.ok k ∈ iter := by
  intro iter
  induction iter with
  | nil => intro acc _; exact ⟨acc, rfl, fun k hk => Or.inl hk⟩
  | cons x rest ih =>
    intro acc hok
    cases x with
    | ok k0 =>
      obtain ⟨rk, h1, h2⟩ := ih (hsInsert acc k0)
        (fun y hy => hok y (List.mem_cons_of_mem _ hy))
      refine ⟨rk, h1, ?_⟩
      intro k hk
      rcases h2 k hk with hacc | hiter
      · rcases (mem_hsInsert acc k0 k).mp hacc with h | h
        · exact Or.inl h
        · rw [h]; exact Or.inr (List.mem_cons_self _ _)
      · exact Or.inr (List.mem_cons_of_mem _ hiter)
    | error e0 =>
      have hx := hok (Except.error e0) (List.mem_cons_self _ _)
      simp [exceptIsOk] at hx

theorem find_original_isSome (stripHash : String → Option String) (key : String) :
    ∀ rk : List String, (∀ k ∈ rk, (stripHash k).isSome = true) →
      (find_original stripHash key rk).isSome = true := by
  intro rk
  induction rk with
  | nil => intro _; rfl
  | cons a rest ih =>
    intro hs
    have ha := hs a (List.mem_cons_self _ _)
    unfold find_original
    cases hsa : stripHash a with
    | none => rw [hsa] at ha; cases ha
    | some p =>
      dsimp only
      by_cases hk : key = p
      · rw [if_pos hk]; rfl
      · rw [if_neg hk]
        exact ih (fun k hk2 => hs k (List.mem_cons_of_mem _ hk2))

theorem patch_entry_isSome (stripHash : String → Option String)
    (remote_keys : List String) (subset_str : String) (e : String × String)
    (hs : ∀ k ∈ remote_keys, (stripHash k).isSome = true) :
    ∃ e', patch_entry stripHash remote_keys subset_str e = some e' := by
  unfold patch_entry
  cases hps : path_starts_with e.1 subset_str with
  | true =>
    exact ⟨e, rfl⟩
  | false =>
    have hfos := find_original_isSome stripHash e.1 remote_keys hs
    cases hfo : find_original stripHash e.1 remote_keys with
    | none => rw [hfo] at hfos; cases hfos
    | some found =>
      cases found with
      | none => exact ⟨e, rfl⟩
      | some original =>
        dsimp only
        by_cases hne : e.2 ≠ original
        · rw [if_pos hne]; exact ⟨(e.1, original), rfl⟩
        · rw [if_neg hne]; exact ⟨e, rfl⟩

theorem patch_loop_isSome (stripHash : String → Option String)
    (remote_keys : List String) (subset_str : String)
    (hs : ∀ k ∈ remote_keys, (stripHash k).isSome = true) :
    ∀ manifest : List (String × String),
      ∃ patched, patch_loop stripHash remote_keys subset_str manifest =
        some patched := by
  intro manifest
  induction manifest with
  | nil => exact ⟨[], rfl⟩
  | cons e rest ih =>
    obtain ⟨e', he⟩ := patch_entry_isSome stripHash remote_keys subset_str e hs
    obtain ⟨rest', hrest⟩ := ih
    refine ⟨e' :: rest', ?_⟩
    unfold patch_loop
    rw [he, hrest]

theorem patch_manifest_isSome (stripHash : String → Option String)
    (remote_keys : List String) (subset_str : String)
    (manifest : List (String × String))
    (hs : ∀ k ∈ remote_keys, (stripHash k).isSome = true) :
    ∃ patched, patch_manifest stripHash remote_keys subset_str manifest =
      some patched := by
  unfold patch_manifest
  by_cases hsub : subset_str = ""
  · rw [if_pos hsub]; exact ⟨manifest, rfl⟩
  · rw [if_neg hsub]
    exact patch_loop_isSome stripHash remote_keys subset_str hs manifest

/-- C10: when every element of the remote enumeration is `Ok` and every
enumerated key strips successfully (`remove_hash_from_path` succeeds on
it), the `unwrap` panic inside the manifest loop is unreachable and
`sync` returns a full plan. -/
theorem sync_no_panic {ε : Type} (fmt : ε → String)
    (stripHash : String → Option String) (remote_iter : List (Except ε String))
    (pairs : List KeyValuePair) (asset_manifest : List (String × String))
    (subset_str : String) (hok : remote_iter.all exceptIsOk = true)
    (hstrip : remote_iter.all (stripOk stripHash) = true) :
    ∃ plan, sync fmt stripHash remote_iter pairs asset_manifest subset_str =
      Except.ok (some plan) := by
  obtain ⟨rk, hrk, hsrc⟩ :=
    collect_ok fmt remote_iter [] (List.all_eq_true.mp hok)
  have hstrips : ∀ k ∈ rk, (stripHash k).isSome = true := by
    intro k hk
    rcases hsrc k hk with h | h
    · cases h
    · have hx := List.all_eq_true.mp hstrip _ h
      simpa [stripOk] using hx
  obtain ⟨patched, hpatched⟩ :=
    patch_manifest_isSome stripHash rk subset_str asset_manifest hstrips
  refine ⟨(filter_files pairs (subset_keys rk subset_str) subset_str,
      (subset_keys rk subset_str).filter (fun k =>
        !(decide (k ∈ subset_keys (buildKeySet (pairs.map (fun p => p.key)))
          subset_str))), patched), ?_⟩
  unfold sync
  rw [hrk]
  dsimp only
  rw [hpatched]
  rfl

theorem sync_no_panic_witness :
    ([Except.ok "a#1"] : List (Except String String)).all exceptIsOk = true ∧
      ([Except.ok "a#1"] : List (Except String String)).all
          (stripOk sampleStrip) = true ∧
      ∃ plan, sync (fun msg => msg) sampleStrip [Except.ok "a#1"] []
          [("b", "old")] "sub" = Except.ok (some plan) :=
  ⟨by decide, by decide,
    sync_no_panic (fun msg => msg) sampleStrip [Except.ok "a#1"] []
      [("b", "old")] "sub" (by decide) (by decide)⟩

end WranglerSync
